import Mathlib

/-!
Shallow embedding of `src/index.js` of the logseq-deepseek-tagger plugin.

Strings are modelled as `List Char` (`Str`).  JavaScript string methods used
by the source are translated one by one:

* `String.prototype.trim`            → `Tagger.trim`
* `String.prototype.toUpperCase`     → `List.map Tagger.upChar` (ASCII letters)
* `String.prototype.split(c)`        → `Tagger.splitOnChar c`
* `Array.prototype.join(", ")`       → `Tagger.joinTags`
* `[...new Set(a)]`                  → `Tagger.dedupFirst` (JS `Set` keeps
                                        first-occurrence insertion order)
* `s.replace(/^["']|["']$/g, "")`    → `Tagger.stripQuotes`
* `s.replace(/"/g, '\\"')`           → `Tagger.escapeQuotes`
* `s.replace("{TEXTE_DU_BLOC}", t)`  → `Tagger.replaceFirst` (first
                                        occurrence, with the ECMA-262
                                        GetSubstitution expansion of `$`
                                        patterns in the replacement text)
* `String.prototype.startsWith`      → `List.isPrefixOf`

The plugin's effects (host notifications, document mutations, the single
network call) are modelled as explicit data returned by the embedded
functions; the network reply is an oracle parameter (`NetOutcome`).
-/

set_option maxRecDepth 100000

namespace Tagger

/-! ## Definitions -/

/-- Strings as lists of characters. -/
abbrev Str := List Char

/-- The whitespace characters relevant to `String.prototype.trim` for the
inputs of this plugin (space, tab, newline, carriage return). -/
def isWS (c : Char) : Bool := c == ' ' || c == '\t' || c == '\n' || c == '\r'

/-- One character of `String.prototype.toUpperCase`, on the ASCII letters
(the only case mapping the source relies on): `a`-`z` map to `A`-`Z`,
everything else is fixed. -/
def upChar (c : Char) : Char :=
  if 97 ≤ c.toNat ∧ c.toNat ≤ 122 then Char.ofNat (c.toNat - 32) else c

/-- `String.prototype.trim`, left half: drop leading whitespace. -/
def trimLeft (s : Str) : Str := s.dropWhile isWS

/-- `String.prototype.trim`, right half: drop trailing whitespace. -/
def trimRight : Str → Str
  | [] => []
  | c :: cs =>
    match trimRight cs with
    | [] => if isWS c then [] else [c]
    | d :: r => c :: d :: r

/-- `String.prototype.trim`: drop leading and trailing whitespace. -/
def trim (s : Str) : Str := trimRight (trimLeft s)

/-- `String.prototype.split(sep)` for a one-character separator: the list of
pieces between occurrences of `sep` (`"".split(',') = [""]`,
`"a,".split(',') = ["a", ""]`). -/
def splitOnChar (sep : Char) : Str → List Str
  | [] => [[]]
  | c :: cs =>
    if c = sep then [] :: splitOnChar sep cs
    else
      match splitOnChar sep cs with
      | [] => [[c]]
      | p :: ps => (c :: p) :: ps

/-- `Array.prototype.join(", ")`. -/
def joinTags : List Str → Str
  | [] => []
  | [t] => t
  | t :: u :: ts => t ++ ',' :: ' ' :: joinTags (u :: ts)

/-- Recursion-friendly characterization of first-occurrence deduplication
(used for proofs; the executable model is `dedupFirst` below). -/
def dedupRec {α : Type} [DecidableEq α] : List α → List α
  | [] => []
  | x :: xs => x :: dedupRec (xs.filter fun y => decide (y ≠ x))
termination_by l => l.length
decreasing_by
  simp only [List.length_cons]
  exact Nat.lt_succ_of_le (List.length_filter_le _ _)

/-- A JS `Set` built by inserting the list's elements left to right: keep an
element iff its value was not seen before. -/
def dedupFirstAux {α : Type} [DecidableEq α] (seen : List α) : List α → List α
  | [] => []
  | x :: xs =>
    if x ∈ seen then dedupFirstAux seen xs
    else x :: dedupFirstAux (x :: seen) xs

/-- `[...new Set(a)]`: deduplicate keeping the first occurrence of each value
(a JS `Set` iterates in insertion order). -/
def dedupFirst {α : Type} [DecidableEq α] (l : List α) : List α :=
  dedupFirstAux [] l

/-- A quote character, as matched by `/^["']|["']$/`. -/
def isQuote (c : Char) : Bool := c == '"' || c == '\''

/-- Drop one leading quote character, if present. -/
def dropLeadQuote : Str → Str
  | [] => []
  | c :: cs => if isQuote c then cs else c :: cs

/-- Line 60: `s.replace(/^["']|["']$/g, "")` removes one optional leading and
one optional trailing quote character (the two alternatives each match at most
once and never overlap, the leading one being consumed first). -/
def stripQuotes (s : Str) : Str :=
  (dropLeadQuote (dropLeadQuote s).reverse).reverse

/-- `tag.trim().toUpperCase()` (lines 62, 100, 207, 257). -/
def cleanPiece (p : Str) : Str := (trim p).map upChar

/-- Lines 59-63 of `src/index.js`, the reply-parsing step of
`fetchTagsFromDeepSeek`: trim the whole reply, strip one optional
leading/trailing quote, split on commas, trim and uppercase each piece and
drop the empty pieces.  No deduplication happens at this stage. -/
def replyToTags (content : Str) : List Str :=
  let suggestedTagsString := stripQuotes (trim content)
  ((splitOnChar ',' suggestedTagsString).map cleanPiece).filter
    fun tag => decide (0 < tag.length)

/-- Line 100 (repeated at lines 207 and 257):
`[...new Set(tagsArray.map(tag => tag.trim().toUpperCase()))].filter(tag => tag.length > 0)`. -/
def uniqueTags (tagsArray : List Str) : List Str :=
  (dedupFirst (tagsArray.map cleanPiece)).filter fun tag => decide (0 < tag.length)

/-- The composite reply-to-written-TagSet pipeline: what the parsing of the
API reply produces once re-cleaned at placement time. -/
def normalizeReply (content : Str) : List Str := uniqueTags (replyToTags content)

/-! ## Host-effect model -/

/-- A content node of the host document: opaque handle and raw text.  An
empty `uuid` models a JS falsy `uuid` field. -/
structure Block where
  uuid : Str
  content : Str
deriving DecidableEq

/-- One `logseq.App.showMsg(msg, severity)` notification. -/
structure Notif where
  msg : String
  severity : String
deriving DecidableEq

/-- A document mutation requested through the host editing API. -/
inductive Mutation where
  /-- `logseq.Editor.updateBlock(uuid, content)`: overwrite a node's text. -/
  | updateBlock (uuid : Str) (content : Str)
  /-- `logseq.Editor.insertBlock(parentUuid, content, { sibling: false, before: false })`:
  a new node appended as the last child of `parentUuid`. -/
  | insertChild (parentUuid : Str) (content : Str)
  /-- `logseq.Editor.insertBlock(anchorUuid, content, { sibling: true, before: false })`:
  a new node inserted as the trailing sibling of `anchorUuid`. -/
  | insertSibling (anchorUuid : Str) (content : Str)
  /-- `logseq.Editor.insertBatchBlock([{ pageName, content }], { sibling: false })`:
  a new top-level node directly under the page. -/
  | insertPageBlock (pageName : Str) (content : Str)
deriving DecidableEq

/-- The network oracle: what the single `fetch` to the chat-completion
endpoint does, as observed by the plugin code. -/
inductive NetOutcome where
  /-- the `fetch` promise rejected (transport-level error); `msg` is `error.message` -/
  | transportError (msg : String)
  /-- `response.ok` false; `msg` is `errorData.error?.message || response.statusText` -/
  | httpError (msg : String)
  /-- success status but no `choices[0].message.content` string field -/
  | malformed
  /-- `choices[0].message.content` present, holding this reply text -/
  | reply (content : Str)
deriving DecidableEq

/-- What one call of `fetchTagsFromDeepSeek` produces: the returned value
(JS `null` = `none`), whether the network request was issued at all, and the
notifications shown from inside the function. -/
structure FetchOut where
  result : Option (List Str)
  networkCalled : Bool
  notifs : List Notif
deriving DecidableEq

/-- Mutations and notifications of one placement step. -/
structure StepOut where
  mutations : List Mutation
  notifs : List Notif
deriving DecidableEq

/-- Everything observable about one slash-command invocation. -/
structure CmdOut where
  apiCalled : Bool
  mutations : List Mutation
  notifs : List Notif
deriving DecidableEq

/-- Lines 11-74: `fetchTagsFromDeepSeek(textContent, apiKey)`.  The JS guard
`!apiKey || apiKey.trim() === ""` is, for strings, equivalent to
`apiKey.trim() === ""`. -/
def fetchTagsFromDeepSeek (textContent apiKey : Str) (net : NetOutcome) : FetchOut :=
  if trim apiKey = [] then
    { result := none, networkCalled := false,
      notifs := [⟨"Veuillez configurer votre clé API DeepSeek dans les paramètres du plugin.", "error"⟩] }
  else
    match net with
    | .transportError msg =>
        { result := none, networkCalled := true,
          notifs := [⟨"Erreur de connexion à DeepSeek: " ++ msg, "error"⟩] }
    | .httpError msg =>
        { result := none, networkCalled := true,
          notifs := [⟨"Erreur de l'API DeepSeek: " ++ msg, "error"⟩] }
    | .malformed =>
        { result := none, networkCalled := true,
          notifs := [⟨"Format de réponse inattendu de DeepSeek.", "warning"⟩] }
    | .reply content =>
        { result := some (replyToTags content), networkCalled := true, notifs := [] }

/-- Lines 111-113: `child.content && child.content.toUpperCase().startsWith("TAGS::")`
(for the empty content both sides are false). -/
def isTagsChild (child : Block) : Bool :=
  ("TAGS::".data).isPrefixOf (child.content.map upChar)

/-- Lines 94-123: `insertOrUpdateTagsChildBlock(parentBlockUUID, tagsArray)`.
`children` models the children list returned by
`getBlock(parentBlockUUID, { includeChildren: true })`. -/
def insertOrUpdateTagsChildBlock (parentBlockUUID : Str) (children : List Block)
    (tagsArray : List Str) : StepOut :=
  if tagsArray.isEmpty then
    ⟨[], [⟨"Aucun tag à insérer.", "info"⟩]⟩
  else
    let uniq := uniqueTags tagsArray
    if uniq.isEmpty then
      ⟨[], [⟨"Aucun tag valide à insérer après nettoyage.", "info"⟩]⟩
    else
      let tagsStringForBlock := joinTags uniq
      match children.find? isTagsChild with
      | some tagsChildBlock =>
          ⟨[.updateBlock tagsChildBlock.uuid (("tags:: ".data) ++ tagsStringForBlock)],
           [⟨"Tags mis à jour dans le bloc enfant !", "success"⟩]⟩
      | none =>
          ⟨[.insertChild parentBlockUUID (("tags:: ".data) ++ tagsStringForBlock)],
           [⟨"Tags ajoutés dans un nouveau bloc enfant !", "success"⟩]⟩

/-- The `.` of the regex `/^.+::/`: any character except a line terminator. -/
def dotChar (c : Char) : Bool := !(c == '\n' || c == '\r')

/-- After at least one consumed dot character: does a run of zero or more
further dot characters reach a literal `::`? -/
def propAfterOne : Str → Bool
  | [] => false
  | ':' :: ':' :: _ => true
  | c :: cs => dotChar c && propAfterOne cs

/-- Truthiness of `t.match(/^.+::/)`: at least one dot character, then `::`.
The callers always pass the trimmed line. -/
def propLineTest : Str → Bool
  | [] => false
  | c :: cs => dotChar c && propAfterOne cs

/-- `[l1, l2, ...].join('\n')`. -/
def joinLines : List Str → Str
  | [] => []
  | [l] => l
  | l :: m :: ls => l ++ '\n' :: joinLines (m :: ls)

/-- Line 138: `currentBlock.content.split('\n').filter(line =>
!line.trim().match(/^.+::/)).join('\n').trim()`. -/
def contentForAI (content : Str) : Str :=
  trim (joinLines ((splitOnChar '\n' content).filter
    fun line => !propLineTest (trim line)))

/-- Lines 126-150: the `/tags` slash command.  `currentBlock` is what
`getBlock(e.uuid)` returns, `children` the children of that block as later
read by `insertOrUpdateTagsChildBlock`. -/
def tagsCommand (apiKey : Str) (currentBlock : Option Block)
    (children : List Block) (net : NetOutcome) : CmdOut :=
  let progress : Notif := ⟨"Génération des tags pour le bloc...", "info"⟩
  if trim apiKey = [] then
    ⟨false, [], [progress, ⟨"Clé API DeepSeek non configurée.", "error"⟩]⟩
  else
    match currentBlock with
    | none =>
        ⟨false, [], [progress, ⟨"Impossible d'obtenir le bloc actuel.", "warning"⟩]⟩
    | some blk =>
        let c := contentForAI blk.content
        if c = [] then
          ⟨false, [], [progress, ⟨"Le bloc est vide (ou ne contient que des propriétés).", "warning"⟩]⟩
        else
          let f := fetchTagsFromDeepSeek c apiKey net
          match f.result with
          | some allTags =>
              let step := insertOrUpdateTagsChildBlock blk.uuid children allTags
              ⟨f.networkCalled, step.mutations, [progress] ++ f.notifs ++ step.notifs⟩
          | none => ⟨f.networkCalled, [], [progress] ++ f.notifs⟩

/-- Line 179, the per-line filter of the `/tagpage` extraction: drop
property-shaped lines and lines beginning, case-insensitively, with
`tags::`. -/
def pageLineKept (line : Str) : Bool :=
  !propLineTest (trim line) && !("TAGS::".data).isPrefixOf ((trim line).map upChar)

/-- Lines 173-192: `extractContent` over the page's top-level blocks
(children are not recursed into), followed by the final `trim`. -/
def extractPageContent (pageBlocks : List Block) : Str :=
  trim (pageBlocks.flatMap fun block =>
    let relevantContent := joinLines ((splitOnChar '\n' block.content).filter pageLineKept)
    if trim relevantContent = [] then []
    else trim relevantContent ++ ('\n' :: '\n' :: []))

/-- Lines 198-202: the `MAX_CONTENT_LENGTH = 15000` ceiling.  Returns the
content sent for analysis and the truncation notification, if any. -/
def truncateForAnalysis (pageContent : Str) : Str × List Notif :=
  if 15000 < pageContent.length then
    (pageContent.take 15000 ++ ("\n[... contenu tronqué ...]".data),
     [⟨"Contenu de la page tronqué pour l'analyse des tags.", "info"⟩])
  else (pageContent, [])

/-- Lines 206-230: the placement step of `/tagpage`, reached with a non-null,
non-empty `allTagsArray`. -/
def tagpagePlacement (pageName : Str) (pageBlocks : List Block)
    (allTagsArray : List Str) : StepOut :=
  let uniq := uniqueTags allTagsArray
  if uniq.isEmpty then
    ⟨[], [⟨"Aucun tag valide à insérer après nettoyage.", "info"⟩]⟩
  else
    let newBlockContent := ("Page Tags:: ".data) ++ joinTags uniq
    match pageBlocks.getLast? with
    | some lastRootBlock =>
        if lastRootBlock.uuid = [] then
          ⟨[.insertPageBlock pageName newBlockContent],
           [⟨"Tags de la page ajoutés dans un nouveau bloc (méthode de repli) !", "success"⟩]⟩
        else
          ⟨[.insertSibling lastRootBlock.uuid newBlockContent],
           [⟨"Tags de la page ajoutés dans un nouveau bloc en bas de page !", "success"⟩]⟩
    | none =>
        ⟨[.insertPageBlock pageName newBlockContent],
         [⟨"Tags de la page ajoutés dans un nouveau bloc (méthode de repli) !", "success"⟩]⟩

/-- Lines 153-235: the `/tagpage` slash command.  `currentPage` is the page
name (`none`/empty models a falsy `currentPage`/`currentPage.name`),
`pageBlocks` the page's top-level block tree. -/
def tagpageCommand (apiKey : Str) (currentPage : Option Str)
    (pageBlocks : List Block) (net : NetOutcome) : CmdOut :=
  let progress : Notif := ⟨"Génération des tags pour la page...", "info"⟩
  if trim apiKey = [] then
    ⟨false, [], [progress, ⟨"Clé API DeepSeek non configurée.", "error"⟩]⟩
  else
    match currentPage with
    | none =>
        ⟨false, [], [progress, ⟨"Impossible de déterminer la page actuelle.", "warning"⟩]⟩
    | some pageName =>
        if pageName = [] then
          ⟨false, [], [progress, ⟨"Impossible de déterminer la page actuelle.", "warning"⟩]⟩
        else if pageBlocks.isEmpty then
          ⟨false, [], [progress, ⟨"La page est vide ou n'a pas de blocs.", "info"⟩]⟩
        else
          let pageContent := extractPageContent pageBlocks
          if pageContent = [] then
            ⟨false, [], [progress, ⟨"Aucun contenu textuel pertinent trouvé sur la page.", "info"⟩]⟩
          else
            let t := truncateForAnalysis pageContent
            let f := fetchTagsFromDeepSeek t.1 apiKey net
            match f.result with
            | some allTagsArray =>
                if allTagsArray.isEmpty then
                  ⟨f.networkCalled, [], [progress] ++ t.2 ++ f.notifs⟩
                else
                  let step := tagpagePlacement pageName pageBlocks allTagsArray
                  ⟨f.networkCalled, step.mutations, [progress] ++ t.2 ++ f.notifs ++ step.notifs⟩
            | none => ⟨f.networkCalled, [], [progress] ++ t.2 ++ f.notifs⟩

/-- Lines 256-265: the placement step of `/tagselect`, reached with a
non-null, non-empty `allTagsArray`. -/
def tagselectPlacement (eUuid : Str) (allTagsArray : List Str) : StepOut :=
  let uniq := uniqueTags allTagsArray
  if uniq.isEmpty then
    ⟨[], [⟨"Aucun tag valide à insérer après nettoyage.", "info"⟩]⟩
  else
    ⟨[.insertSibling eUuid (("Selection Tags:: ".data) ++ joinTags uniq)],
     [⟨"Tags de la sélection ajoutés dans un nouveau bloc !", "success"⟩]⟩

/-- Lines 239-270: the `/tagselect` slash command.  `selection` is
`getEditingCursorSelection()?.text`, `eUuid` the node being edited. -/
def tagselectCommand (apiKey : Str) (selection : Option Str) (eUuid : Str)
    (net : NetOutcome) : CmdOut :=
  let progress : Notif := ⟨"Génération des tags pour la sélection...", "info"⟩
  if trim apiKey = [] then
    ⟨false, [], [progress, ⟨"Clé API DeepSeek non configurée.", "error"⟩]⟩
  else
    match selection with
    | none =>
        ⟨false, [], [progress, ⟨"Aucune sélection de texte trouvée ou la sélection est vide.", "warning"⟩]⟩
    | some text =>
        if trim text = [] then
          ⟨false, [], [progress, ⟨"Aucune sélection de texte trouvée ou la sélection est vide.", "warning"⟩]⟩
        else
          let selectedText := trim text
          let f := fetchTagsFromDeepSeek selectedText apiKey net
          match f.result with
          | some allTagsArray =>
              if allTagsArray.isEmpty then
                ⟨f.networkCalled, [], [progress] ++ f.notifs⟩
              else
                let step := tagselectPlacement eUuid allTagsArray
                ⟨f.networkCalled, step.mutations, [progress] ++ f.notifs ++ step.notifs⟩
          | none => ⟨f.networkCalled, [], [progress] ++ f.notifs⟩

/-! ## Prompt construction (lines 18-31) -/

/-- Line 30: `textContent.replace(/"/g, '\\"')`: escape each internal double
quote. -/
def escapeQuotes (s : Str) : Str :=
  s.flatMap fun c => if c = '"' then ['\\', '"'] else [c]

/-- `String(x).padStart(2, '0')` (lines 20-21). -/
def pad2 (n : Nat) : Str :=
  let s := (Nat.repr n).data
  List.replicate (2 - s.length) '0' ++ s

/-- Lines 18-22: the `YYYY-MM-DD` reference date string. -/
def currentDateString (y m d : Nat) : Str :=
  (Nat.repr y).data ++ '-' :: (pad2 m ++ '-' :: pad2 d)

/-- Lines 24-28: the prompt template, a JS template literal with
`${currentDateString}` already interpolated and the `{TEXTE_DU_BLOC}`
placeholder still in place. -/
def promptTemplate (ds : Str) : Str :=
  ("Analyse le texte suivant et suggère 3 à 10 mots-clés ou concepts pertinents de un ou deux mots qui pourraient servir de tags. Retourne-les sous forme de liste séparée par des virgules, sans aucune autre introduction ni explication, chaque tag est donné en majuscule. Par exemple: \"TECHNOLOGIE, INTELLIGENCE ARTIFICIELLE, FUTUR\".\nTU DOIS OBLIGATOIREMENT AJOUTER aux tags proposés, l'année (sur quatre chiffres), le mois (en Français et en majuscules), le mois (en français et en majuscules) avec l'année (e.g. FEVRIER 2025), le trimestre avec l'année (e.g. T1 2025), le quadrimestre avec l'année (e.g. Q1 2025), le semestre avec l'année (e.g. S1 2025). Les tags temporels doivent aussi être en majuscules.\nTexte: \"{TEXTE_DU_BLOC}\"\nDate pour référence temporelle: \"").data
    ++ ds ++ ("\"\nTags suggérés:").data

/-- ECMA-262 GetSubstitution, as `String.prototype.replace` applies it to a
string replacement when the pattern is a string: in the replacement text,
`$$` yields `$`, `$&` yields the matched text, a `$` followed by a backquote
(`\x60`) yields the part of the subject before the match, `$'` the part
after the match; any other `$` is literal (a string pattern has no capture
groups, so `$1`, `$<name>` and the like stay as written). -/
def getSubstitution (matched before after : Str) : Str → Str
  | [] => []
  | [c] => [c]
  | c :: d :: rest =>
    if c = '$' then
      if d = '$' then '$' :: getSubstitution matched before after rest
      else if d = '&' then matched ++ getSubstitution matched before after rest
      else if d = '\x60' then before ++ getSubstitution matched before after rest
      else if d = '\'' then after ++ getSubstitution matched before after rest
      else c :: getSubstitution matched before after (d :: rest)
    else c :: getSubstitution matched before after (d :: rest)

/-- Scanner of `replaceFirst`: `revBefore` is the already-scanned part of the
subject, reversed. -/
def replaceFirstAux (pat repl : Str) : Str → Str → Str
  | revBefore, [] => revBefore.reverse
  | revBefore, c :: cs =>
    if pat.isPrefixOf (c :: cs) then
      revBefore.reverse ++
        getSubstitution pat revBefore.reverse ((c :: cs).drop pat.length) repl ++
        (c :: cs).drop pat.length
    else replaceFirstAux pat repl (c :: revBefore) cs

/-- `s.replace(pat, repl)` for a string pattern and a string replacement:
substitute at the first occurrence of `pat`, expanding the `$` replacement
patterns of `repl` as JS does (`getSubstitution`). -/
def replaceFirst (pat repl s : Str) : Str := replaceFirstAux pat repl [] s

/-- Whether the string contains a `$` replacement pattern that
`String.prototype.replace` would expand: `$$`, `$&`, a `$` followed by a
backquote, or `$'`. -/
def hasDollarPat : Str → Bool
  | [] => false
  | [_] => false
  | c :: d :: rest =>
    if c = '$' then
      if d = '$' ∨ d = '&' ∨ d = '\x60' ∨ d = '\'' then true
      else hasDollarPat (d :: rest)
    else hasDollarPat (d :: rest)

/-- Lines 30-31: the final prompt for a given reference date `y-m-d`. -/
def buildPrompt (textContent : Str) (y m d : Nat) : Str :=
  replaceFirst ("{TEXTE_DU_BLOC}".data) (escapeQuotes textContent)
    (promptTemplate (currentDateString y m d))

/-- Substring test (specification-side helper). -/
def containsSub (pat : Str) : Str → Bool
  | [] => pat.isEmpty
  | c :: cs => pat.isPrefixOf (c :: cs) || containsSub pat cs

/-! ## Properties of the pipeline pieces -/

/-- The string does not start with a quote character. -/
def noLeadQuote : Str → Bool
  | [] => true
  | c :: _ => !isQuote c

/-- The string does not end with a quote character. -/
def noTrailQuote (t : Str) : Bool := noLeadQuote t.reverse

/-- The first tag, if any, does not start with a quote character. -/
def headTagNoQuote : List Str → Bool
  | [] => true
  | t :: _ => noLeadQuote t

/-- The last tag, if any, does not end with a quote character. -/
def lastTagNoQuote : List Str → Bool
  | [] => true
  | [t] => noTrailQuote t
  | _ :: u :: ts => lastTagNoQuote (u :: ts)

/-- No occurrence of `pat` starts within the first `k` positions of the
string. -/
def noHitBefore (pat : Str) : Str → Nat → Bool
  | _, 0 => true
  | [], _ + 1 => true
  | c :: cs, k + 1 => !pat.isPrefixOf (c :: cs) && noHitBefore pat cs k

/-- The text written by a mutation. -/
def Mutation.text : Mutation → Str
  | .updateBlock _ c => c
  | .insertChild _ c => c
  | .insertSibling _ c => c
  | .insertPageBlock _ c => c

/-- The reply normalization exactly as claim C1 words it: split the raw reply
on commas, trim and uppercase each piece, discard empties, deduplicate
keeping first occurrences — with no whole-string trim and no quote
stripping. -/
def specNormalizeLiteral (s : Str) : List Str :=
  dedupFirst (((splitOnChar ',' s).map cleanPiece).filter
    fun tag => decide (0 < tag.length))

/-- The single-pass pipeline with the preprocessing the code actually does:
trim the whole reply and strip one optional leading/trailing quote before
splitting. -/
def specNormalize (s : Str) : List Str :=
  dedupFirst (((splitOnChar ',' (stripQuotes (trim s))).map cleanPiece).filter
    fun tag => decide (0 < tag.length))

/-- The prompt text standing before the embedded content when the reference
date is 2025-02-15. -/
def c5Pre : Str :=
  ("Analyse le texte suivant et suggère 3 à 10 mots-clés ou concepts pertinents de un ou deux mots qui pourraient servir de tags. Retourne-les sous forme de liste séparée par des virgules, sans aucune autre introduction ni explication, chaque tag est donné en majuscule. Par exemple: \"TECHNOLOGIE, INTELLIGENCE ARTIFICIELLE, FUTUR\".\nTU DOIS OBLIGATOIREMENT AJOUTER aux tags proposés, l'année (sur quatre chiffres), le mois (en Français et en majuscules), le mois (en français et en majuscules) avec l'année (e.g. FEVRIER 2025), le trimestre avec l'année (e.g. T1 2025), le quadrimestre avec l'année (e.g. Q1 2025), le semestre avec l'année (e.g. S1 2025). Les tags temporels doivent aussi être en majuscules.\nTexte: \"").data

/-- The prompt text standing after the embedded content when the reference
date is 2025-02-15. -/
def c5Post : Str :=
  ("\"\nDate pour référence temporelle: \"2025-02-15\"\nTags suggérés:").data

/-! ## Theorems -/

theorem toNat_ofNat_valid (n : Nat) (h : n.isValidChar) :
    (Char.ofNat n).toNat = n := by
  simp only [Char.ofNat, dif_pos h]
  simp [Char.ofNatAux, Char.toNat, UInt32.toNat]

theorem upChar_toNat (c : Char) :
    (upChar c).toNat =
      if 97 ≤ c.toNat ∧ c.toNat ≤ 122 then c.toNat - 32 else c.toNat := by
  unfold upChar
  by_cases h : 97 ≤ c.toNat ∧ c.toNat ≤ 122
  · rw [if_pos h, if_pos h, toNat_ofNat_valid]
    exact Or.inl (by omega)
  · rw [if_neg h, if_neg h]

theorem char_eq_iff_toNat {c d : Char} : c = d ↔ c.toNat = d.toNat := by
  constructor
  · intro h; rw [h]
  · intro h
    rcases c with ⟨cv, _⟩; rcases d with ⟨dv, _⟩
    have hv : cv = dv := UInt32.ext h
    simp [hv]

theorem upChar_eq_self {c : Char} (h : ¬(97 ≤ c.toNat ∧ c.toNat ≤ 122)) :
    upChar c = c := by
  unfold upChar; rw [if_neg h]

theorem upChar_upChar (c : Char) : upChar (upChar c) = upChar c := by
  by_cases h : 97 ≤ c.toNat ∧ c.toNat ≤ 122
  · have h1 : (upChar c).toNat = c.toNat - 32 := by rw [upChar_toNat, if_pos h]
    have h2 : ¬(97 ≤ (upChar c).toNat ∧ (upChar c).toNat ≤ 122) := by omega
    exact upChar_eq_self h2
  · rw [upChar_eq_self h, upChar_eq_self h]

theorem isWS_iff (c : Char) :
    isWS c = true ↔ c = ' ' ∨ c = '\t' ∨ c = '\n' ∨ c = '\r' := by
  simp [isWS, or_assoc]

theorem isWS_toNat (c : Char) :
    isWS c = true ↔ (c.toNat = 32 ∨ c.toNat = 9 ∨ c.toNat = 10 ∨ c.toNat = 13) := by
  rw [isWS_iff]
  constructor
  · rintro (rfl | rfl | rfl | rfl)
    · exact Or.inl (by decide)
    · exact Or.inr (Or.inl (by decide))
    · exact Or.inr (Or.inr (Or.inl (by decide)))
    · exact Or.inr (Or.inr (Or.inr (by decide)))
  · rintro (h | h | h | h)
    · exact Or.inl (char_eq_iff_toNat.2 (by rw [h]; decide))
    · exact Or.inr (Or.inl (char_eq_iff_toNat.2 (by rw [h]; decide)))
    · exact Or.inr (Or.inr (Or.inl (char_eq_iff_toNat.2 (by rw [h]; decide))))
    · exact Or.inr (Or.inr (Or.inr (char_eq_iff_toNat.2 (by rw [h]; decide))))

theorem isWS_upChar (c : Char) : isWS (upChar c) = isWS c := by
  by_cases h : 97 ≤ c.toNat ∧ c.toNat ≤ 122
  · have h1 : (upChar c).toNat = c.toNat - 32 := by rw [upChar_toNat, if_pos h]
    have hc : isWS c = false := by
      rw [Bool.eq_false_iff]
      intro hw
      rw [isWS_toNat] at hw
      omega
    have hu : isWS (upChar c) = false := by
      rw [Bool.eq_false_iff]
      intro hw
      rw [isWS_toNat] at hw
      omega
    rw [hc, hu]
  · have h1 : upChar c = c := by unfold upChar; rw [if_neg h]
    rw [h1]

theorem upChar_eq_comma {c : Char} (h : upChar c = ',') : c = ',' := by
  by_cases hl : 97 ≤ c.toNat ∧ c.toNat ≤ 122
  · exfalso
    have h1 : (upChar c).toNat = c.toNat - 32 := by rw [upChar_toNat, if_pos hl]
    have h2 : (',' : Char).toNat = 44 := by decide
    rw [char_eq_iff_toNat] at h
    omega
  · rwa [upChar_eq_self hl] at h

theorem trimLeft_idem (s : Str) : trimLeft (trimLeft s) = trimLeft s := by
  induction s with
  | nil => rfl
  | cons c cs ih =>
    by_cases h : isWS c
    · simp [trimLeft, List.dropWhile_cons, h] at ih ⊢
      exact ih
    · simp [trimLeft, List.dropWhile_cons, h]

theorem trimLeft_eq_self_of_head {c : Char} {cs : Str} (h : isWS c = false) :
    trimLeft (c :: cs) = c :: cs := by
  simp [trimLeft, List.dropWhile_cons, h]

/-- `trimRight` keeps the head of the list (or empties the list). -/
theorem trimRight_head {c : Char} {cs : Str} :
    trimRight (c :: cs) = [] ∨ ∃ r, trimRight (c :: cs) = c :: r := by
  rw [trimRight]
  cases h : trimRight cs with
  | nil =>
    by_cases hw : isWS c
    · simp [hw]
    · simp [hw]
  | cons d r => exact Or.inr ⟨d :: r, rfl⟩

theorem trimRight_idem (s : Str) : trimRight (trimRight s) = trimRight s := by
  induction s with
  | nil => rfl
  | cons c cs ih =>
    rw [trimRight]
    cases h : trimRight cs with
    | nil =>
      by_cases hw : isWS c
      · simp [hw]; rfl
      · simp [hw, trimRight]
    | cons d r =>
      rw [h] at ih
      rw [trimRight, ih]

/-- A list ending in a non-whitespace character is `trimRight`-fixed. -/
theorem trimRight_eq_self (s : Str) (h : ∀ c, s.getLast? = some c → isWS c = false) :
    trimRight s = s := by
  induction s with
  | nil => rfl
  | cons c cs ih =>
    cases cs with
    | nil =>
      have hc : isWS c = false := h c rfl
      simp [trimRight, hc]
    | cons d ds =>
      have hcs : trimRight (d :: ds) = d :: ds := by
        apply ih
        intro e he
        apply h
        rwa [List.getLast?_cons_cons]
      rw [trimRight, hcs]

/-- The last character surviving `trimRight` is not whitespace. -/
theorem trimRight_getLast (s : Str) :
    ∀ c, (trimRight s).getLast? = some c → isWS c = false := by
  induction s with
  | nil => intro c h; simp [trimRight] at h
  | cons a as ih =>
    intro c h
    rw [trimRight] at h
    cases hs : trimRight as with
    | nil =>
      rw [hs] at h
      by_cases hw : isWS a
      · simp [hw] at h
      · simp [hw] at h
        rw [← h]
        exact Bool.eq_false_iff.2 hw
    | cons d r =>
      rw [hs, List.getLast?_cons_cons] at h
      exact ih c (by rw [hs]; exact h)

theorem trimRight_length_le (s : Str) : (trimRight s).length ≤ s.length := by
  induction s with
  | nil => simp [trimRight]
  | cons c cs ih =>
    rw [trimRight]
    cases h : trimRight cs with
    | nil =>
      by_cases hw : isWS c
      · simp [hw]
      · simp [hw]
    | cons d r =>
      rw [h] at ih
      simpa using ih

theorem trim_trim (s : Str) : trim (trim s) = trim s := by
  unfold trim
  cases hm : trimLeft s with
  | nil => rfl
  | cons c cs =>
    have hc : isWS c = false := by
      have h1 : trimLeft (c :: cs) = c :: cs := by rw [← hm, trimLeft_idem]
      by_contra hw
      rw [Bool.not_eq_false] at hw
      have h2 : trimLeft (c :: cs) = trimLeft cs := by
        simp [trimLeft, List.dropWhile_cons, hw]
      rw [h1] at h2
      have h3 : (trimLeft cs).length ≤ cs.length :=
        (List.dropWhile_suffix isWS).length_le
      rw [← h2] at h3
      simp at h3
    rcases @trimRight_head c cs with h | ⟨r, h⟩
    · rw [h]; rfl
    · rw [h, trimLeft_eq_self_of_head hc, ← h, trimRight_idem]

theorem trimLeft_eq_self_of_trim {t : Str} (h : trim t = t) : trimLeft t = t := by
  have hsuf : trimLeft t <:+ t := List.dropWhile_suffix isWS
  apply hsuf.eq_of_length
  have h1 : (trimLeft t).length ≤ t.length := hsuf.length_le
  have h2 : t.length ≤ (trimLeft t).length := by
    conv_lhs => rw [← h]
    exact trimRight_length_le (trimLeft t)
  omega

theorem trimRight_eq_self_of_trim {t : Str} (h : trim t = t) : trimRight t = t := by
  have h1 : trimLeft t = t := trimLeft_eq_self_of_trim h
  calc trimRight t = trimRight (trimLeft t) := by rw [h1]
    _ = t := h

theorem trim_cons_space {t : Str} (h : trim t = t) : trim (' ' :: t) = t := by
  have h1 : trimLeft (' ' :: t) = trimLeft t := by
    show List.dropWhile isWS (' ' :: t) = List.dropWhile isWS t
    rw [List.dropWhile_cons, if_pos (by decide : isWS ' ' = true)]
  unfold trim
  rw [h1, trimLeft_eq_self_of_trim h, trimRight_eq_self_of_trim h]

theorem trimLeft_map_upChar (l : Str) :
    trimLeft (l.map upChar) = (trimLeft l).map upChar := by
  induction l with
  | nil => rfl
  | cons c cs ih =>
    simp only [List.map_cons, trimLeft, List.dropWhile_cons, isWS_upChar]
    by_cases h : isWS c
    · rw [if_pos h, if_pos h]
      exact ih
    · rw [if_neg h, if_neg h, List.map_cons]

theorem trimRight_map_upChar (l : Str) :
    trimRight (l.map upChar) = (trimRight l).map upChar := by
  induction l with
  | nil => rfl
  | cons c cs ih =>
    rw [List.map_cons, trimRight, trimRight, ih]
    cases h : trimRight cs with
    | nil =>
      simp only [List.map_nil, isWS_upChar]
      by_cases hw : isWS c
      · rw [if_pos hw, if_pos hw]; rfl
      · rw [if_neg hw, if_neg hw]; rfl
    | cons d r => simp

theorem trim_map_upChar (l : Str) :
    trim (l.map upChar) = (trim l).map upChar := by
  unfold trim
  rw [trimLeft_map_upChar, trimRight_map_upChar]

theorem splitOnChar_ne_nil (sep : Char) (l : Str) : splitOnChar sep l ≠ [] := by
  cases l with
  | nil => simp [splitOnChar]
  | cons c cs =>
    rw [splitOnChar]
    by_cases h : c = sep
    · simp [h]
    · rw [if_neg h]
      cases splitOnChar sep cs <;> simp

theorem splitOnChar_cons_ne {sep c : Char} (cs : Str) (h : c ≠ sep) {p : Str}
    {ps : List Str} (hs : splitOnChar sep cs = p :: ps) :
    splitOnChar sep (c :: cs) = (c :: p) :: ps := by
  rw [splitOnChar, if_neg h, hs]

/-- A piece of the split never contains the separator. -/
theorem splitOnChar_pieces (sep : Char) (l : Str) :
    ∀ p ∈ splitOnChar sep l, sep ∉ p := by
  induction l with
  | nil => simp [splitOnChar]
  | cons c cs ih =>
    intro p hp
    rw [splitOnChar] at hp
    by_cases h : c = sep
    · rw [if_pos h] at hp
      rcases List.mem_cons.1 hp with h1 | h1
      · rw [h1]; simp
      · exact ih p h1
    · rw [if_neg h] at hp
      cases hs : splitOnChar sep cs with
      | nil => exact absurd hs (splitOnChar_ne_nil sep cs)
      | cons q qs =>
        rw [hs] at hp
        rcases List.mem_cons.1 hp with h1 | h1
        · rw [h1]
          intro hmem
          rcases List.mem_cons.1 hmem with h2 | h2
          · exact h h2.symm
          · exact ih q (hs ▸ List.mem_cons_self q qs) h2
        · exact ih p (hs ▸ List.mem_cons.2 (Or.inr h1))

/-- Splitting a separator-free string gives a single piece. -/
theorem splitOnChar_no_sep {sep : Char} {l : Str} (h : sep ∉ l) :
    splitOnChar sep l = [l] := by
  induction l with
  | nil => rfl
  | cons c cs ih =>
    have hc : c ≠ sep := fun he => h (he ▸ List.mem_cons_self c cs)
    have hcs : sep ∉ cs := fun hm => h (List.mem_cons.2 (Or.inr hm))
    exact splitOnChar_cons_ne cs hc (ih hcs)

/-- Splitting at the first separator occurrence. -/
theorem splitOnChar_append {sep : Char} {xs : Str} (ys : Str) (h : sep ∉ xs) :
    splitOnChar sep (xs ++ sep :: ys) = xs :: splitOnChar sep ys := by
  induction xs with
  | nil => simp [splitOnChar]
  | cons c cs ih =>
    have hc : c ≠ sep := fun he => h (he ▸ List.mem_cons_self c cs)
    have hcs : sep ∉ cs := fun hm => h (List.mem_cons.2 (Or.inr hm))
    rw [List.cons_append]
    cases hs : splitOnChar sep (cs ++ sep :: ys) with
    | nil => exact absurd hs (splitOnChar_ne_nil sep _)
    | cons q qs =>
      rw [splitOnChar_cons_ne _ hc hs]
      rw [ih hcs] at hs
      rw [List.cons.injEq] at hs
      rw [hs.1, hs.2]

theorem joinTags_head? {t : Str} (ts : List Str) (h : t ≠ []) :
    (joinTags (t :: ts)).head? = t.head? := by
  cases ts with
  | nil => rfl
  | cons u us =>
    rw [joinTags, List.head?_append]
    cases t with
    | nil => exact absurd rfl h
    | cons c cs => rfl

theorem joinTags_getLast? {t : Str} {ts : List Str}
    (h : ∀ u ∈ t :: ts, u ≠ []) :
    (joinTags (t :: ts)).getLast? = ((t :: ts).getLast (by simp)).getLast? := by
  induction ts generalizing t with
  | nil => rfl
  | cons u us ih =>
    rw [joinTags, List.getLast?_append]
    have h1 : (joinTags (u :: us)).getLast? = ((u :: us).getLast (by simp)).getLast? :=
      ih fun v hv => h v (List.mem_cons.2 (Or.inr hv))
    have h2 : joinTags (u :: us) ≠ [] := by
      intro he
      have hu : u ≠ [] := h u (by simp)
      cases us with
      | nil => exact hu he
      | cons v vs =>
        rw [joinTags] at he
        rcases List.append_eq_nil.1 he with ⟨he1, he2⟩
        exact hu he1
    have h3 : (',' :: ' ' :: joinTags (u :: us)).getLast? = (joinTags (u :: us)).getLast? := by
      rw [List.getLast?_cons_cons]
      cases hj : joinTags (u :: us) with
      | nil => exact absurd hj h2
      | cons d r => rw [List.getLast?_cons_cons]
    rw [h3, h1]
    have h4 : ((u :: us).getLast (by simp)).getLast? ≠ none := by
      rw [Ne, List.getLast?_eq_none_iff]
      exact h _ (List.mem_cons.2 (Or.inr (List.getLast_mem _)))
    cases ho : ((u :: us).getLast (by simp)).getLast? with
    | none => exact absurd ho h4
    | some c =>
      simp only [Option.or_some]
      have h5 : (u :: us : List Str).getLast (by simp) = (t :: u :: us : List Str).getLast (by simp) := by
        rw [List.getLast_cons_cons]
      rw [← h5, ho]

theorem mem_dedupRec {α : Type} [DecidableEq α] {a : α} {l : List α} :
    a ∈ dedupRec l ↔ a ∈ l := by
  induction l using dedupRec.induct with
  | case1 => rw [dedupRec]
  | case2 x xs ih =>
    rw [dedupRec]
    simp only [List.mem_cons, ih, List.mem_filter]
    constructor
    · rintro (h | ⟨h, _⟩)
      · exact Or.inl h
      · exact Or.inr h
    · rintro (h | h)
      · exact Or.inl h
      · by_cases he : a = x
        · exact Or.inl he
        · exact Or.inr ⟨h, decide_eq_true he⟩

theorem dedupRec_nodup {α : Type} [DecidableEq α] (l : List α) :
    (dedupRec l).Nodup := by
  induction l using dedupRec.induct with
  | case1 => rw [dedupRec]; exact List.nodup_nil
  | case2 x xs ih =>
    rw [dedupRec, List.nodup_cons]
    refine ⟨fun hm => ?_, ih⟩
    rw [mem_dedupRec, List.mem_filter] at hm
    exact (of_decide_eq_true hm.2) rfl

theorem dedupRec_of_nodup {α : Type} [DecidableEq α] {l : List α}
    (h : l.Nodup) : dedupRec l = l := by
  induction l using dedupRec.induct with
  | case1 => rw [dedupRec]
  | case2 x xs ih =>
    rw [List.nodup_cons] at h
    have hf : xs.filter (fun y => decide (y ≠ x)) = xs := by
      rw [List.filter_eq_self]
      intro a ha
      exact decide_eq_true (fun he => h.1 (he ▸ ha))
    rw [hf] at ih
    rw [dedupRec, hf, ih h.2]

theorem dedupRec_sublist {α : Type} [DecidableEq α] (l : List α) :
    List.Sublist (dedupRec l) l := by
  induction l using dedupRec.induct with
  | case1 => rw [dedupRec]
  | case2 x xs ih =>
    rw [dedupRec]
    exact (ih.trans (List.filter_sublist xs)).cons₂ x

theorem dedupRec_filter {α : Type} [DecidableEq α] (p : α → Bool) (l : List α) :
    dedupRec (l.filter p) = (dedupRec l).filter p := by
  induction l using dedupRec.induct with
  | case1 => rw [List.filter_nil, dedupRec, List.filter_nil]
  | case2 x xs ih =>
    by_cases hp : p x = true
    · rw [List.filter_cons_of_pos hp, dedupRec, dedupRec,
        List.filter_cons_of_pos hp, List.filter_comm, ih]
    · have hpf : p x = false := by simpa using hp
      rw [List.filter_cons_of_neg hp, dedupRec,
        List.filter_cons_of_neg hp, ← ih]
      congr 1
      rw [List.filter_filter]
      apply List.filter_congr
      intro a ha
      by_cases he : a = x
      · rw [he, hpf]; rfl
      · rw [decide_eq_true he, Bool.and_true]

theorem dedupFirstAux_eq {α : Type} [DecidableEq α] (seen : List α) (l : List α) :
    dedupFirstAux seen l = dedupRec (l.filter fun y => decide (y ∉ seen)) := by
  induction l generalizing seen with
  | nil => rw [dedupFirstAux, List.filter_nil, dedupRec]
  | cons x xs ih =>
    rw [dedupFirstAux]
    by_cases hx : x ∈ seen
    · rw [if_pos hx, List.filter_cons_of_neg (by simpa using hx), ih]
    · rw [if_neg hx, List.filter_cons_of_pos (by simpa using hx), dedupRec, ih]
      congr 1
      rw [List.filter_filter]
      congr 1
      apply List.filter_congr
      intro a ha
      by_cases he : a = x
      · rw [he]
        simp
      · by_cases hs : a ∈ seen
        · simp [hs, he]
        · simp [hs, he]

theorem dedupFirst_eq_dedupRec {α : Type} [DecidableEq α] (l : List α) :
    dedupFirst l = dedupRec l := by
  rw [dedupFirst, dedupFirstAux_eq]
  congr 1
  rw [List.filter_eq_self]
  intro a ha
  simp

theorem mem_dedupFirst {α : Type} [DecidableEq α] {a : α} {l : List α} :
    a ∈ dedupFirst l ↔ a ∈ l := by
  rw [dedupFirst_eq_dedupRec, mem_dedupRec]

theorem dedupFirst_nodup {α : Type} [DecidableEq α] (l : List α) :
    (dedupFirst l).Nodup := by
  rw [dedupFirst_eq_dedupRec]; exact dedupRec_nodup l

theorem dedupFirst_of_nodup {α : Type} [DecidableEq α] {l : List α}
    (h : l.Nodup) : dedupFirst l = l := by
  rw [dedupFirst_eq_dedupRec]; exact dedupRec_of_nodup h

theorem dedupFirst_sublist {α : Type} [DecidableEq α] (l : List α) :
    List.Sublist (dedupFirst l) l := by
  rw [dedupFirst_eq_dedupRec]; exact dedupRec_sublist l

theorem dedupFirst_filter {α : Type} [DecidableEq α] (p : α → Bool) (l : List α) :
    dedupFirst (l.filter p) = (dedupFirst l).filter p := by
  rw [dedupFirst_eq_dedupRec, dedupFirst_eq_dedupRec, dedupRec_filter]

/-! ## The tag pipeline of `src/index.js` -/

theorem cleanPiece_idem (p : Str) : cleanPiece (cleanPiece p) = cleanPiece p := by
  unfold cleanPiece
  rw [trim_map_upChar, trim_trim, List.map_map]
  exact List.map_congr_left fun a _ => upChar_upChar a

theorem trim_eq_of_cleanPiece {t : Str} (h : cleanPiece t = t) : trim t = t := by
  conv_lhs => rw [← h]
  rw [cleanPiece, trim_map_upChar, trim_trim]
  exact h

theorem map_upChar_eq_of_cleanPiece {t : Str} (h : cleanPiece t = t) :
    t.map upChar = t := by
  conv_lhs => rw [← h]
  rw [cleanPiece, List.map_map]
  calc (trim t).map (upChar ∘ upChar) = (trim t).map upChar :=
        List.map_congr_left fun a _ => upChar_upChar a
    _ = t := h

theorem trimRight_sublist (l : Str) : List.Sublist (trimRight l) l := by
  induction l with
  | nil => rw [trimRight]
  | cons c cs ih =>
    rw [trimRight]
    cases h : trimRight cs with
    | nil =>
      by_cases hw : isWS c
      · rw [if_pos hw]; exact List.nil_sublist _
      · rw [if_neg hw]
        exact (List.nil_sublist cs).cons₂ c
    | cons d r =>
      rw [h] at ih
      exact ih.cons₂ c

theorem mem_of_mem_trim {a : Char} {l : Str} (h : a ∈ trim l) : a ∈ l := by
  unfold trim at h
  have h1 : a ∈ trimLeft l := (trimRight_sublist (trimLeft l)).mem h
  exact (List.dropWhile_suffix isWS).sublist.mem h1

theorem head_not_ws_of_trimLeft_fix {c : Char} {cs : Str}
    (h : trimLeft (c :: cs) = c :: cs) : isWS c = false := by
  by_contra hw
  rw [Bool.not_eq_false] at hw
  have h2 : trimLeft (c :: cs) = trimLeft cs := by
    simp [trimLeft, List.dropWhile_cons, hw]
  rw [h] at h2
  have h3 : (trimLeft cs).length ≤ cs.length :=
    (List.dropWhile_suffix isWS).length_le
  rw [← h2] at h3
  simp at h3

/-- Every element of `replyToTags` output is a clean, non-empty, comma-free
tag. -/
theorem replyToTags_mem {s : Str} :
    ∀ t ∈ replyToTags s, cleanPiece t = t ∧ t ≠ [] ∧ ',' ∉ t := by
  intro t ht
  unfold replyToTags at ht
  rw [List.mem_filter] at ht
  obtain ⟨hmem, hlen⟩ := ht
  rw [List.mem_map] at hmem
  obtain ⟨piece, hpiece, hclean⟩ := hmem
  refine ⟨?_, ?_, ?_⟩
  · rw [← hclean, cleanPiece_idem]
  · rw [← List.length_pos]
    exact of_decide_eq_true hlen
  · intro hc
    rw [← hclean] at hc
    unfold cleanPiece at hc
    rw [List.mem_map] at hc
    obtain ⟨c, hcmem, hup⟩ := hc
    have hcc : c = ',' := upChar_eq_comma hup
    have h2 : ',' ∈ piece := mem_of_mem_trim (hcc ▸ hcmem)
    exact splitOnChar_pieces ',' _ piece hpiece h2

/-- Every element of `uniqueTags` output is the cleaning of an input tag, and
is non-empty. -/
theorem uniqueTags_mem {l : List Str} :
    ∀ t ∈ uniqueTags l, (∃ u ∈ l, t = cleanPiece u) ∧ t ≠ [] := by
  intro t ht
  unfold uniqueTags at ht
  rw [List.mem_filter] at ht
  obtain ⟨hmem, hlen⟩ := ht
  rw [mem_dedupFirst, List.mem_map] at hmem
  obtain ⟨u, hu, hc⟩ := hmem
  exact ⟨⟨u, hu, hc.symm⟩, by rw [← List.length_pos]; exact of_decide_eq_true hlen⟩

theorem uniqueTags_nodup (l : List Str) : (uniqueTags l).Nodup := by
  unfold uniqueTags
  exact (dedupFirst_nodup _).filter _

/-- A list of clean, non-empty, pairwise-distinct tags is `uniqueTags`-fixed:
re-cleaning at placement time changes nothing. -/
theorem uniqueTags_of_clean {l : List Str}
    (h : ∀ t ∈ l, cleanPiece t = t ∧ t ≠ []) (hn : l.Nodup) :
    uniqueTags l = l := by
  unfold uniqueTags
  have h1 : l.map cleanPiece = l := by
    conv_rhs => rw [← List.map_id l]
    exact List.map_congr_left fun a ha => (h a ha).1
  rw [h1, dedupFirst_of_nodup hn, List.filter_eq_self]
  intro a ha
  exact decide_eq_true (List.length_pos.2 (h a ha).2)

theorem normalizeReply_mem {s : Str} :
    ∀ t ∈ normalizeReply s, cleanPiece t = t ∧ t ≠ [] ∧ ',' ∉ t := by
  intro t ht
  obtain ⟨⟨u, hu, hc⟩, hne⟩ := uniqueTags_mem t ht
  obtain ⟨hcu, hnu, hcommau⟩ := replyToTags_mem u hu
  rw [hcu] at hc
  exact hc ▸ ⟨hcu, hnu, hcommau⟩

theorem normalizeReply_nodup (s : Str) : (normalizeReply s).Nodup :=
  uniqueTags_nodup _

/-- `normalizeReply` equals the single-pass pipeline: dedup after the
filtered cleaning (the placement-time re-cleaning is the identity there). -/
theorem normalizeReply_eq_single_pass (s : Str) :
    normalizeReply s =
      dedupFirst (((splitOnChar ',' (stripQuotes (trim s))).map cleanPiece).filter
        fun tag => decide (0 < tag.length)) := by
  unfold normalizeReply uniqueTags
  have h1 : (replyToTags s).map cleanPiece = replyToTags s := by
    conv_rhs => rw [← List.map_id (replyToTags s)]
    exact List.map_congr_left fun a ha => (replyToTags_mem a ha).1
  rw [h1]
  show (dedupFirst (replyToTags s)).filter _ = _
  unfold replyToTags
  rw [dedupFirst_filter, List.filter_filter]
  apply List.filter_congr
  intro a _
  rw [Bool.and_self]

/-! ## Round trip: normalizing a comma-joined TagSet -/

theorem headTagNoQuote_spec {L : List Str} (h : headTagNoQuote L = true) :
    ∀ t c, L.head? = some t → t.head? = some c → isQuote c = false := by
  intro t c hL hc
  cases L with
  | nil => simp at hL
  | cons t0 ts =>
    have ht0 : t0 = t := by simpa using hL
    rw [headTagNoQuote, ht0] at h
    cases t with
    | nil => simp at hc
    | cons c0 cs =>
      have hc0 : c0 = c := by simpa using hc
      rw [noLeadQuote, hc0] at h
      simpa using h

theorem lastTagNoQuote_spec {L : List Str} (h : lastTagNoQuote L = true) :
    ∀ t c, L.getLast? = some t → t.getLast? = some c → isQuote c = false := by
  induction L with
  | nil => intro t c hL _; simp at hL
  | cons t0 ts ih =>
    intro t c hL hc
    cases ts with
    | nil =>
      have ht0 : t0 = t := by simpa using hL
      rw [lastTagNoQuote, ht0] at h
      rw [noTrailQuote] at h
      have hr : t.reverse.head? = some c := by
        rw [List.head?_reverse]; exact hc
      cases htr : t.reverse with
      | nil => rw [htr] at hr; simp at hr
      | cons c0 cs =>
        rw [htr] at hr h
        have hc0 : c0 = c := by simpa using hr
        rw [noLeadQuote, hc0] at h
        simpa using h
    | cons u us =>
      rw [lastTagNoQuote] at h
      rw [List.getLast?_cons_cons] at hL
      exact ih h t c hL hc

theorem stripQuotes_eq_self {s : Str}
    (hh : ∀ c, s.head? = some c → isQuote c = false)
    (hl : ∀ c, s.getLast? = some c → isQuote c = false) :
    stripQuotes s = s := by
  unfold stripQuotes
  have h1 : dropLeadQuote s = s := by
    cases s with
    | nil => rfl
    | cons c cs => rw [dropLeadQuote, if_neg (by simp [hh c rfl])]
  rw [h1]
  have h2 : dropLeadQuote s.reverse = s.reverse := by
    cases hr : s.reverse with
    | nil => rfl
    | cons c cs =>
      have hc : s.getLast? = some c := by
        rw [← List.head?_reverse, hr]; rfl
      rw [dropLeadQuote, if_neg (by simp [hl c hc])]
  rw [h2, List.reverse_reverse]

theorem splitOnChar_joinTags :
    ∀ (t : Str) (ts : List Str), (∀ u ∈ t :: ts, ',' ∉ u) →
      splitOnChar ',' (joinTags (t :: ts)) = t :: ts.map (fun u => ' ' :: u) := by
  intro t ts
  induction ts generalizing t with
  | nil =>
    intro h
    rw [joinTags, List.map_nil]
    exact splitOnChar_no_sep (h t (by simp))
  | cons u us ih =>
    intro h
    rw [joinTags]
    have ht : ',' ∉ t := h t (by simp)
    have hrest : splitOnChar ',' (joinTags (u :: us)) = u :: us.map (fun v => ' ' :: v) :=
      ih u fun v hv => h v (List.mem_cons.2 (Or.inr hv))
    rw [splitOnChar_append (' ' :: joinTags (u :: us)) ht]
    have hsp : splitOnChar ',' (' ' :: joinTags (u :: us)) =
        (' ' :: u) :: us.map (fun v => ' ' :: v) :=
      splitOnChar_cons_ne _ (by decide) hrest
    rw [hsp, List.map_cons]

theorem joinTags_ne_nil {t : Str} {ts : List Str} (h : t ≠ []) :
    joinTags (t :: ts) ≠ [] := by
  cases ts with
  | nil => rw [joinTags]; exact h
  | cons u us =>
    rw [joinTags]
    intro he
    rcases List.append_eq_nil.1 he with ⟨he1, _⟩
    exact h he1

theorem trim_joinTags {t : Str} {ts : List Str}
    (h : ∀ u ∈ t :: ts, cleanPiece u = u ∧ u ≠ []) :
    trim (joinTags (t :: ts)) = joinTags (t :: ts) := by
  have ht := h t (by simp)
  have hheadq : (joinTags (t :: ts)).head? = t.head? := joinTags_head? ts ht.2
  have hlast : (joinTags (t :: ts)).getLast? =
      ((t :: ts).getLast (by simp)).getLast? :=
    joinTags_getLast? fun u hu => (h u hu).2
  unfold trim
  have h1 : trimLeft (joinTags (t :: ts)) = joinTags (t :: ts) := by
    cases hj : joinTags (t :: ts) with
    | nil => rfl
    | cons c cs =>
      apply trimLeft_eq_self_of_head
      have hch : t.head? = some c := by rw [← hheadq, hj]; rfl
      cases htt : t with
      | nil => rw [htt] at hch; simp at hch
      | cons c0 cs0 =>
        rw [htt] at hch
        have hc0 : c0 = c := by simpa using hch
        have htfix : trimLeft (c0 :: cs0) = c0 :: cs0 := by
          rw [← htt]
          exact trimLeft_eq_self_of_trim (trim_eq_of_cleanPiece ht.1)
        rw [← hc0]
        exact head_not_ws_of_trimLeft_fix htfix
  rw [h1]
  apply trimRight_eq_self
  intro c hc
  rw [hlast] at hc
  set tl := (t :: ts).getLast (by simp) with htl
  have htlmem : tl ∈ t :: ts := List.getLast_mem _
  have htlfix : trimRight tl = tl :=
    trimRight_eq_self_of_trim (trim_eq_of_cleanPiece (h tl htlmem).1)
  exact trimRight_getLast tl c (by rw [htlfix]; exact hc)

/-- The key round-trip: re-parsing the `", "`-join of a list of clean,
non-empty, comma-free tags whose boundary characters are not quotes gives the
list back. -/
theorem replyToTags_joinTags {L : List Str}
    (hclean : ∀ u ∈ L, cleanPiece u = u ∧ u ≠ [] ∧ ',' ∉ u)
    (hhead : headTagNoQuote L = true)
    (hlast : lastTagNoQuote L = true) :
    replyToTags (joinTags L) = L := by
  cases L with
  | nil => decide
  | cons t ts =>
    have hcln : ∀ u ∈ t :: ts, cleanPiece u = u ∧ u ≠ [] :=
      fun u hu => ⟨(hclean u hu).1, (hclean u hu).2.1⟩
    have htrim : trim (joinTags (t :: ts)) = joinTags (t :: ts) :=
      trim_joinTags hcln
    have hstrip : stripQuotes (joinTags (t :: ts)) = joinTags (t :: ts) := by
      apply stripQuotes_eq_self
      · intro c hc
        rw [joinTags_head? ts (hcln t (by simp)).2] at hc
        exact headTagNoQuote_spec hhead t c rfl hc
      · intro c hc
        rw [joinTags_getLast? (fun u hu => (hcln u hu).2)] at hc
        have hgl : (t :: ts).getLast? = some ((t :: ts).getLast (by simp)) :=
          List.getLast?_eq_getLast _ (by simp)
        exact lastTagNoQuote_spec hlast _ c hgl hc
    have hdef : replyToTags (joinTags (t :: ts)) =
        ((splitOnChar ',' (stripQuotes (trim (joinTags (t :: ts))))).map
          cleanPiece).filter (fun tag => decide (0 < tag.length)) := rfl
    rw [hdef, htrim, hstrip,
      splitOnChar_joinTags t ts (fun u hu => (hclean u hu).2.2)]
    have hmap : (t :: ts.map (fun u => ' ' :: u)).map cleanPiece = t :: ts := by
      rw [List.map_cons, List.map_map, (hcln t (by simp)).1]
      congr 1
      have : ∀ u ∈ ts, (cleanPiece ∘ fun v => ' ' :: v) u = id u := by
        intro u hu
        have hu1 := hcln u (List.mem_cons.2 (Or.inr hu))
        show cleanPiece (' ' :: u) = u
        unfold cleanPiece
        rw [trim_cons_space (trim_eq_of_cleanPiece hu1.1)]
        exact map_upChar_eq_of_cleanPiece hu1.1
      rw [List.map_congr_left this, List.map_id]
    rw [hmap, List.filter_eq_self]
    intro u hu
    exact decide_eq_true (List.length_pos.2 (hcln u hu).2)

/-! ## Substring and replacement lemmas (for the prompt claims) -/

theorem containsSub_nil_pat (l : Str) : containsSub [] l = true := by
  cases l with
  | nil => rfl
  | cons c cs => rw [containsSub]; rfl

theorem isPrefixOf_append_self (p B : Str) : p.isPrefixOf (p ++ B) = true :=
  List.isPrefixOf_iff_prefix.2 (List.prefix_append p B)

theorem containsSub_append_left {p A : Str} (B : Str)
    (h : containsSub p A = true) : containsSub p (A ++ B) = true := by
  induction A with
  | nil =>
    rw [containsSub] at h
    have hp : p = [] := by simpa using h
    rw [hp, List.nil_append]
    exact containsSub_nil_pat B
  | cons c cs ih =>
    rw [containsSub, Bool.or_eq_true] at h
    rw [List.cons_append, containsSub, Bool.or_eq_true]
    rcases h with h | h
    · left
      have hpre : List.IsPrefix p (c :: cs) := List.isPrefixOf_iff_prefix.1 h
      exact List.isPrefixOf_iff_prefix.2 (hpre.trans ⟨B, rfl⟩)
    · exact Or.inr (ih h)

theorem containsSub_append_right {p B : Str} (A : Str)
    (h : containsSub p B = true) : containsSub p (A ++ B) = true := by
  induction A with
  | nil => simpa using h
  | cons c cs ih =>
    rw [List.cons_append, containsSub, Bool.or_eq_true]
    exact Or.inr ih

theorem containsSub_middle (p A B : Str) :
    containsSub p (A ++ (p ++ B)) = true := by
  apply containsSub_append_right
  cases p with
  | nil => exact containsSub_nil_pat B
  | cons c cs =>
    rw [List.cons_append, containsSub, Bool.or_eq_true]
    exact Or.inl (isPrefixOf_append_self (c :: cs) B)

/-- A replacement text without `$` patterns is substituted as-is. -/
theorem getSubstitution_of_no_pat {m b a : Str} :
    ∀ (r : Str), hasDollarPat r = false → getSubstitution m b a r = r := by
  intro r
  induction r with
  | nil => intro _; rw [getSubstitution]
  | cons c rest ih =>
    cases rest with
    | nil => intro _; rw [getSubstitution]
    | cons d rest' =>
      intro h
      rw [hasDollarPat] at h
      rw [getSubstitution]
      by_cases hc : c = '$'
      · rw [if_pos hc] at h ⊢
        by_cases hd : d = '$' ∨ d = '&' ∨ d = '\x60' ∨ d = '\''
        · rw [if_pos hd] at h
          simp at h
        · rw [if_neg hd] at h
          push_neg at hd
          rw [if_neg hd.1, if_neg hd.2.1, if_neg hd.2.2.1, if_neg hd.2.2.2,
            ih h]
      · rw [if_neg hc] at h ⊢
        rw [ih h]

/-- While no occurrence of `pat` starts, the scanner only moves text into
the accumulator. -/
theorem replaceFirstAux_skip {pat repl : Str} (A : Str) :
    ∀ (rev tail : Str), noHitBefore pat (A ++ tail) A.length = true →
      replaceFirstAux pat repl rev (A ++ tail) =
        replaceFirstAux pat repl (A.reverse ++ rev) tail := by
  induction A with
  | nil => intro rev tail _; rfl
  | cons c cs ih =>
    intro rev tail h
    rw [List.length_cons] at h
    rw [List.cons_append, noHitBefore, Bool.and_eq_true] at h
    have hx : List.isPrefixOf pat (c :: (cs ++ tail)) = false := by
      simpa using h.1
    show replaceFirstAux pat repl rev (c :: (cs ++ tail)) = _
    rw [replaceFirstAux, if_neg (by simp [hx]), ih (c :: rev) tail h.2]
    congr 1
    rw [List.reverse_cons, List.append_assoc]
    rfl

/-- At the matching position the scanner emits the scanned part, the
substituted replacement and the rest. -/
theorem replaceFirstAux_hit {pat repl : Str} (rev B : Str) (h : pat ≠ []) :
    replaceFirstAux pat repl rev (pat ++ B) =
      rev.reverse ++ getSubstitution pat rev.reverse B repl ++ B := by
  cases pat with
  | nil => exact absurd rfl h
  | cons p ps =>
    have hpre : (p :: ps).isPrefixOf (p :: (ps ++ B)) = true :=
      isPrefixOf_append_self (p :: ps) B
    have hdrop : (p :: (ps ++ B)).drop (p :: ps).length = B :=
      List.drop_left (p :: ps) B
    show replaceFirstAux (p :: ps) repl rev (p :: (ps ++ B)) = _
    rw [replaceFirstAux, if_pos hpre, hdrop]

/-- `List.find?` returns the element at the first index satisfying the
predicate. -/
theorem find?_eq_of_first {α : Type} (p : α → Bool) (l : List α) :
    ∀ (i : Nat) (hi : i < l.length),
      p (l.get ⟨i, hi⟩) = true →
      (∀ j (hj : j < i), p (l.get ⟨j, Nat.lt_trans hj hi⟩) = false) →
      l.find? p = some (l.get ⟨i, hi⟩) := by
  induction l with
  | nil => intro i hi; simp at hi
  | cons a as ih =>
    intro i hi hp hj
    cases i with
    | zero =>
      have ha : p a = true := hp
      rw [List.find?_cons, ha]
      rfl
    | succ i =>
      have h0 : p a = false := by
        have hh := hj 0 (Nat.succ_pos i)
        simpa using hh
      have hstep : List.find? p (a :: as) = List.find? p as := by
        rw [List.find?_cons, h0]
      rw [hstep, List.get_cons_succ]
      rw [List.get_cons_succ] at hp
      refine ih i (by simpa using hi) hp ?_
      intro j hjlt
      have hh := hj (j + 1) (by omega)
      rwa [List.get_cons_succ] at hh

/-! ## Claims -/

/-- C3: for every content string, calling the suggestion client with a
credential that is empty or consists only of whitespace returns `null`
(`none`), issues no network call, and shows exactly the missing-credential
error notification. -/
theorem claim_C3 (textContent apiKey : Str) (net : NetOutcome)
    (h : trim apiKey = []) :
    fetchTagsFromDeepSeek textContent apiKey net =
      { result := none, networkCalled := false,
        notifs := [⟨"Veuillez configurer votre clé API DeepSeek dans les paramètres du plugin.", "error"⟩] } := by
  unfold fetchTagsFromDeepSeek
  rw [if_pos h]

theorem claim_C3_witness :
    trim ("   ".data) = [] ∧
    fetchTagsFromDeepSeek ("contenu".data) ("   ".data) (.reply ("AI".data)) =
      { result := none, networkCalled := false,
        notifs := [⟨"Veuillez configurer votre clé API DeepSeek dans les paramètres du plugin.", "error"⟩] } :=
  ⟨by decide, claim_C3 ("contenu".data) ("   ".data) (.reply ("AI".data)) (by decide)⟩

theorem truncateForAnalysis_short {pageContent : Str}
    (h : pageContent.length ≤ 15000) :
    truncateForAnalysis pageContent = (pageContent, []) := by
  unfold truncateForAnalysis
  rw [if_neg (by omega)]

/-- C7: in page mode, extracted content longer than 15000 characters is
truncated to its first 15000 characters with the visible marker appended and
the user is notified; content of at most 15000 characters is passed on
unchanged with no notification. -/
theorem claim_C7 (pageContent : Str) :
    (15000 < pageContent.length →
      truncateForAnalysis pageContent =
        (pageContent.take 15000 ++ ("\n[... contenu tronqué ...]".data),
         [⟨"Contenu de la page tronqué pour l'analyse des tags.", "info"⟩])) ∧
    (pageContent.length ≤ 15000 →
      truncateForAnalysis pageContent = (pageContent, [])) := by
  constructor
  · intro h
    unfold truncateForAnalysis
    rw [if_pos h]
  · intro h
    exact truncateForAnalysis_short h

theorem claim_C7_witness :
    15000 < (List.replicate 15001 'a').length ∧
    truncateForAnalysis (List.replicate 15001 'a') =
      (List.replicate 15000 'a' ++ ("\n[... contenu tronqué ...]".data),
       [⟨"Contenu de la page tronqué pour l'analyse des tags.", "info"⟩]) ∧
    truncateForAnalysis ("court".data) = ("court".data, []) := by
  have hlen : 15000 < (List.replicate 15001 'a').length := by
    rw [List.length_replicate]
    omega
  have h := (claim_C7 (List.replicate 15001 'a')).1 hlen
  have ht : (List.replicate 15001 'a').take 15000 = List.replicate 15000 'a' := by
    rw [List.take_replicate]
    norm_num
  rw [ht] at h
  exact ⟨hlen, h, (claim_C7 ("court".data)).2 (by decide)⟩

/-- C8: a node whose text consists only of property-shaped lines (matching
`/^.+::/` after trimming) extracts to the empty string, and the `/tags`
command then aborts with a warning, performing no API call and no document
mutation. -/
theorem claim_C8 (apiKey u content : Str) (children : List Block)
    (net : NetOutcome) (hkey : trim apiKey ≠ [])
    (hlines : ∀ line ∈ splitOnChar '\n' content, propLineTest (trim line) = true) :
    contentForAI content = [] ∧
    tagsCommand apiKey (some ⟨u, content⟩) children net =
      ⟨false, [], [⟨"Génération des tags pour le bloc...", "info"⟩,
                   ⟨"Le bloc est vide (ou ne contient que des propriétés).", "warning"⟩]⟩ := by
  have hempty : contentForAI content = [] := by
    unfold contentForAI
    have hfilter : (splitOnChar '\n' content).filter
        (fun line => !propLineTest (trim line)) = [] := by
      rw [List.filter_eq_nil_iff]
      intro a ha
      simp [hlines a ha]
    rw [hfilter]
    rfl
  refine ⟨hempty, ?_⟩
  unfold tagsCommand
  rw [if_neg hkey]
  simp only [hempty, if_true]

theorem claim_C8_witness :
    (∀ line ∈ splitOnChar '\n' ("due:: 2025-01-01".data),
      propLineTest (trim line) = true) ∧
    contentForAI ("due:: 2025-01-01".data) = [] ∧
    tagsCommand ("k".data) (some ⟨"b".data, "due:: 2025-01-01".data⟩) []
        (.reply ("AI".data)) =
      ⟨false, [], [⟨"Génération des tags pour le bloc...", "info"⟩,
                   ⟨"Le bloc est vide (ou ne contient que des propriétés).", "warning"⟩]⟩ :=
  ⟨by decide,
   (claim_C8 ("k".data) ("b".data) ("due:: 2025-01-01".data) []
     (.reply ("AI".data)) (by decide) (by decide)).1,
   (claim_C8 ("k".data) ("b".data) ("due:: 2025-01-01".data) []
     (.reply ("AI".data)) (by decide) (by decide)).2⟩

theorem insertOrUpdate_reduce (parentUuid : Str) (children : List Block)
    (tags : List Str) (hne : tags.isEmpty = false)
    (hu : (uniqueTags tags).isEmpty = false) :
    insertOrUpdateTagsChildBlock parentUuid children tags =
      match children.find? isTagsChild with
      | some c =>
          ⟨[.updateBlock c.uuid (("tags:: ".data) ++ joinTags (uniqueTags tags))],
           [⟨"Tags mis à jour dans le bloc enfant !", "success"⟩]⟩
      | none =>
          ⟨[.insertChild parentUuid (("tags:: ".data) ++ joinTags (uniqueTags tags))],
           [⟨"Tags ajoutés dans un nouveau bloc enfant !", "success"⟩]⟩ := by
  unfold insertOrUpdateTagsChildBlock
  rw [if_neg (by simp [hne]), if_neg (by simp [hu])]

/-- C4: block-mode placement for a valid non-empty TagSet: when some direct
child case-insensitively starts with `tags::`, the first such child is
overwritten with `tags:: ` followed by the `", "`-joined TagSet and nothing
is inserted; otherwise a single new last child with that text is inserted. -/
theorem claim_C4 (parentUuid : Str) (children : List Block) (tags : List Str)
    (hne : tags ≠ [])
    (hclean : ∀ t ∈ tags, cleanPiece t = t ∧ t ≠ [])
    (hnodup : tags.Nodup) :
    ((∀ c ∈ children, isTagsChild c = false) →
      insertOrUpdateTagsChildBlock parentUuid children tags =
        ⟨[.insertChild parentUuid (("tags:: ".data) ++ joinTags tags)],
         [⟨"Tags ajoutés dans un nouveau bloc enfant !", "success"⟩]⟩) ∧
    (∀ i (hi : i < children.length),
      isTagsChild (children.get ⟨i, hi⟩) = true →
      (∀ j (hj : j < i), isTagsChild (children.get ⟨j, Nat.lt_trans hj hi⟩) = false) →
      insertOrUpdateTagsChildBlock parentUuid children tags =
        ⟨[.updateBlock (children.get ⟨i, hi⟩).uuid (("tags:: ".data) ++ joinTags tags)],
         [⟨"Tags mis à jour dans le bloc enfant !", "success"⟩]⟩) := by
  have huniq : uniqueTags tags = tags := uniqueTags_of_clean hclean hnodup
  have hne2 : tags.isEmpty = false := by
    cases tags with
    | nil => exact absurd rfl hne
    | cons t ts => rfl
  have hred := insertOrUpdate_reduce parentUuid children tags hne2
    (by rw [huniq]; exact hne2)
  rw [huniq] at hred
  constructor
  · intro hnone
    have hfind : children.find? isTagsChild = none :=
      List.find?_eq_none.2 fun c hc => by simp [hnone c hc]
    rw [hred, hfind]
  · intro i hi hp hj
    have hfind : children.find? isTagsChild = some (children.get ⟨i, hi⟩) :=
      find?_eq_of_first isTagsChild children i hi hp hj
    rw [hred, hfind]

theorem claim_C4_witness :
    (insertOrUpdateTagsChildBlock ("p".data)
        [⟨"c0".data, "note".data⟩, ⟨"c1".data, "tags:: OLD".data⟩,
         ⟨"c2".data, "tags:: OTHER".data⟩]
        ["NEW1".data, "NEW2".data] =
      ⟨[.updateBlock ("c1".data) ("tags:: NEW1, NEW2".data)],
       [⟨"Tags mis à jour dans le bloc enfant !", "success"⟩]⟩) ∧
    (insertOrUpdateTagsChildBlock ("p".data) [⟨"c0".data, "note".data⟩]
        ["A".data, "B".data] =
      ⟨[.insertChild ("p".data) ("tags:: A, B".data)],
       [⟨"Tags ajoutés dans un nouveau bloc enfant !", "success"⟩]⟩) := by
  constructor
  · have h := (claim_C4 ("p".data)
      [⟨"c0".data, "note".data⟩, ⟨"c1".data, "tags:: OLD".data⟩,
       ⟨"c2".data, "tags:: OTHER".data⟩]
      ["NEW1".data, "NEW2".data] (by decide) (by decide) (by decide)).2
      1 (by decide) (by decide)
    have h2 := h (by decide)
    exact h2
  · have h := (claim_C4 ("p".data) [⟨"c0".data, "note".data⟩]
      ["A".data, "B".data] (by decide) (by decide) (by decide)).1
      (by decide)
    exact h

/-- C9: page-mode placement for a valid non-empty TagSet never updates an
existing node: it inserts exactly one new node, as the trailing sibling of
the page's last top-level node with text `Page Tags:: ` followed by the
joined TagSet, falling back to a new top-level node of the page when the last
top-level node is unavailable as an anchor (no node, or falsy uuid). -/
theorem claim_C9 (pageName : Str) (pageBlocks : List Block) (tags : List Str)
    (hne : tags ≠ [])
    (hclean : ∀ t ∈ tags, cleanPiece t = t ∧ t ≠ [])
    (hnodup : tags.Nodup) :
    (∀ m ∈ (tagpagePlacement pageName pageBlocks tags).mutations,
      ∀ uu cc, m ≠ .updateBlock uu cc) ∧
    tagpagePlacement pageName pageBlocks tags =
      match pageBlocks.getLast? with
      | some lastRootBlock =>
          if lastRootBlock.uuid = [] then
            ⟨[.insertPageBlock pageName (("Page Tags:: ".data) ++ joinTags tags)],
             [⟨"Tags de la page ajoutés dans un nouveau bloc (méthode de repli) !", "success"⟩]⟩
          else
            ⟨[.insertSibling lastRootBlock.uuid (("Page Tags:: ".data) ++ joinTags tags)],
             [⟨"Tags de la page ajoutés dans un nouveau bloc en bas de page !", "success"⟩]⟩
      | none =>
          ⟨[.insertPageBlock pageName (("Page Tags:: ".data) ++ joinTags tags)],
           [⟨"Tags de la page ajoutés dans un nouveau bloc (méthode de repli) !", "success"⟩]⟩ := by
  have huniq : uniqueTags tags = tags := uniqueTags_of_clean hclean hnodup
  have hne2 : (uniqueTags tags).isEmpty = false := by
    rw [huniq]
    cases tags with
    | nil => exact absurd rfl hne
    | cons t ts => rfl
  have hred : tagpagePlacement pageName pageBlocks tags =
      match pageBlocks.getLast? with
      | some lastRootBlock =>
          if lastRootBlock.uuid = [] then
            ⟨[.insertPageBlock pageName (("Page Tags:: ".data) ++ joinTags tags)],
             [⟨"Tags de la page ajoutés dans un nouveau bloc (méthode de repli) !", "success"⟩]⟩
          else
            ⟨[.insertSibling lastRootBlock.uuid (("Page Tags:: ".data) ++ joinTags tags)],
             [⟨"Tags de la page ajoutés dans un nouveau bloc en bas de page !", "success"⟩]⟩
      | none =>
          ⟨[.insertPageBlock pageName (("Page Tags:: ".data) ++ joinTags tags)],
           [⟨"Tags de la page ajoutés dans un nouveau bloc (méthode de repli) !", "success"⟩]⟩ := by
    unfold tagpagePlacement
    rw [if_neg (by simp [hne2]), huniq]
  refine ⟨?_, hred⟩
  rw [hred]
  cases hl : pageBlocks.getLast? with
  | none => intro m hm uu cc; simp at hm; simp [hm]
  | some b =>
    intro m hm uu cc
    by_cases hb : b.uuid = []
    · simp [hb] at hm
      simp [hm]
    · simp [hb] at hm
      simp [hm]

theorem claim_C9_witness :
    (tagpagePlacement ("p".data)
        [⟨"b1".data, "tags:: DEJA".data⟩, ⟨"b2".data, "texte".data⟩]
        ["A".data, "B".data] =
      ⟨[.insertSibling ("b2".data) ("Page Tags:: A, B".data)],
       [⟨"Tags de la page ajoutés dans un nouveau bloc en bas de page !", "success"⟩]⟩) ∧
    (tagpagePlacement ("p".data) [⟨[], "texte".data⟩] ["A".data] =
      ⟨[.insertPageBlock ("p".data) ("Page Tags:: A".data)],
       [⟨"Tags de la page ajoutés dans un nouveau bloc (méthode de repli) !", "success"⟩]⟩) := by
  constructor
  · have h := (claim_C9 ("p".data)
      [⟨"b1".data, "tags:: DEJA".data⟩, ⟨"b2".data, "texte".data⟩]
      ["A".data, "B".data] (by decide) (by decide) (by decide)).2
    rw [h]
    decide
  · have h := (claim_C9 ("p".data) [⟨[], "texte".data⟩] ["A".data]
      (by decide) (by decide) (by decide)).2
    rw [h]
    decide

/-- C10: every tags line written by any of the three modes is re-normalized
at placement time: the written text after the mode's prefix is the
`", "`-join of the cleaned tag array (trimmed, uppercased, empty tags
dropped, first-occurrence deduplicated), whose elements are clean, non-empty
and pairwise distinct; when that cleaned sequence is empty nothing is
written. -/
theorem claim_C10 (tagsArray : List Str) (parentUuid eUuid pageName : Str)
    (children pageBlocks : List Block) :
    (∀ t ∈ uniqueTags tagsArray, cleanPiece t = t ∧ t ≠ []) ∧
    (uniqueTags tagsArray).Nodup ∧
    uniqueTags tagsArray =
      dedupFirst ((tagsArray.map cleanPiece).filter fun tag => decide (0 < tag.length)) ∧
    (uniqueTags tagsArray = [] →
      (insertOrUpdateTagsChildBlock parentUuid children tagsArray).mutations = [] ∧
      (tagpagePlacement pageName pageBlocks tagsArray).mutations = [] ∧
      (tagselectPlacement eUuid tagsArray).mutations = []) ∧
    (∀ m ∈ (insertOrUpdateTagsChildBlock parentUuid children tagsArray).mutations,
      m.text = ("tags:: ".data) ++ joinTags (uniqueTags tagsArray)) ∧
    (∀ m ∈ (tagpagePlacement pageName pageBlocks tagsArray).mutations,
      m.text = ("Page Tags:: ".data) ++ joinTags (uniqueTags tagsArray)) ∧
    (∀ m ∈ (tagselectPlacement eUuid tagsArray).mutations,
      m.text = ("Selection Tags:: ".data) ++ joinTags (uniqueTags tagsArray)) := by
  refine ⟨?_, uniqueTags_nodup tagsArray, ?_, ?_, ?_, ?_, ?_⟩
  · intro t ht
    obtain ⟨⟨u, _, hu⟩, hne⟩ := uniqueTags_mem t ht
    exact ⟨by rw [hu, cleanPiece_idem], hne⟩
  · rw [dedupFirst_filter]
    rfl
  · intro hempty
    have he : (uniqueTags tagsArray).isEmpty = true := by rw [hempty]; rfl
    refine ⟨?_, ?_, ?_⟩
    · unfold insertOrUpdateTagsChildBlock
      by_cases ht : tagsArray.isEmpty
      · rw [if_pos ht]
      · rw [if_neg ht, if_pos he]
    · unfold tagpagePlacement
      rw [if_pos he]
    · unfold tagselectPlacement
      rw [if_pos he]
  · intro m hm
    unfold insertOrUpdateTagsChildBlock at hm
    by_cases ht : tagsArray.isEmpty
    · rw [if_pos ht] at hm; simp at hm
    · rw [if_neg ht] at hm
      by_cases he : (uniqueTags tagsArray).isEmpty
      · rw [if_pos he] at hm; simp at hm
      · rw [if_neg he] at hm
        cases hf : children.find? isTagsChild with
        | some c => rw [hf] at hm; simp at hm; rw [hm]; rfl
        | none => rw [hf] at hm; simp at hm; rw [hm]; rfl
  · intro m hm
    unfold tagpagePlacement at hm
    by_cases he : (uniqueTags tagsArray).isEmpty
    · rw [if_pos he] at hm; simp at hm
    · rw [if_neg he] at hm
      cases hl : pageBlocks.getLast? with
      | some b =>
        rw [hl] at hm
        by_cases hb : b.uuid = []
        · simp [hb] at hm; rw [hm]; rfl
        · simp [hb] at hm; rw [hm]; rfl
      | none => rw [hl] at hm; simp at hm; rw [hm]; rfl
  · intro m hm
    unfold tagselectPlacement at hm
    by_cases he : (uniqueTags tagsArray).isEmpty
    · rw [if_pos he] at hm; simp at hm
    · rw [if_neg he] at hm; simp at hm; rw [hm]; rfl

theorem claim_C10_witness :
    uniqueTags [" ai".data, "AI ".data, "  ".data, "b".data] =
      ["AI".data, "B".data] ∧
    (tagselectPlacement ("e".data) [" ai".data, "AI ".data, "  ".data, "b".data]).mutations =
      [.insertSibling ("e".data) ("Selection Tags:: AI, B".data)] ∧
    (∀ m ∈ (tagselectPlacement ("e".data)
        [" ai".data, "AI ".data, "  ".data, "b".data]).mutations,
      m.text = ("Selection Tags:: ".data) ++
        joinTags (uniqueTags [" ai".data, "AI ".data, "  ".data, "b".data])) ∧
    (uniqueTags ["  ".data] = [] ∧
      (tagselectPlacement ("e".data) ["  ".data]).mutations = []) := by
  refine ⟨by decide, by decide, ?_, by decide, ?_⟩
  · exact (claim_C10 [" ai".data, "AI ".data, "  ".data, "b".data]
      ("p".data) ("e".data) ("pg".data) [] []).2.2.2.2.2.2
  · exact ((claim_C10 ["  ".data] ("p".data) ("e".data) ("pg".data) [] []).2.2.2.1
      (by decide)).2.2

/-- C1 counterexample: for the quoted reply `"AI"` the code strips the quotes
first (yielding `[AI]`) while the pipeline described by the claim, applied to
the raw reply, keeps them. -/
theorem claim_C1_cex :
    normalizeReply ("\"AI\"".data) = ["AI".data] ∧
    specNormalizeLiteral ("\"AI\"".data) = [['"', 'A', 'I', '"']] ∧
    normalizeReply ("\"AI\"".data) ≠ specNormalizeLiteral ("\"AI\"".data) := by
  decide

/-- C1 (amended): the tag list produced from a reply is obtained by trimming
the whole reply, stripping one optional leading and one optional trailing
quote character, then splitting on commas, trimming and uppercasing each
piece, discarding empty pieces, and deduplicating preserving first-occurrence
order; in particular `"AI, Tech, AI"` yields exactly `["AI", "TECH"]`. -/
theorem claim_C1 :
    (∀ s : Str, normalizeReply s = specNormalize s) ∧
    normalizeReply ("AI, Tech, AI".data) = ["AI".data, "TECH".data] := by
  refine ⟨fun s => ?_, by decide⟩
  rw [normalizeReply_eq_single_pass]
  rfl

/-- C2 counterexample: for the reply `""A` (two leading double quotes) the
normalized TagSet is `["A]` (one quote survives); joining and re-normalizing
strips that quote, so normalization is not idempotent as claimed. -/
theorem claim_C2_cex :
    normalizeReply ("\"\"A".data) = [['"', 'A']] ∧
    normalizeReply (joinTags (normalizeReply ("\"\"A".data))) = [['A']] ∧
    normalizeReply (joinTags (normalizeReply ("\"\"A".data))) ≠
      normalizeReply ("\"\"A".data) := by
  decide

/-- C2 (amended): re-normalizing the `", "`-joined normalization of `s`
yields the same TagSet, provided the first normalized tag does not start with
a quote character and the last one does not end with one (otherwise the
quote-stripping step mutilates a boundary tag, see the counterexample). -/
theorem claim_C2 (s : Str)
    (hhead : headTagNoQuote (normalizeReply s) = true)
    (hlast : lastTagNoQuote (normalizeReply s) = true) :
    normalizeReply (joinTags (normalizeReply s)) = normalizeReply s := by
  have hprops := normalizeReply_mem (s := s)
  have hnodup := normalizeReply_nodup s
  have hjoin : replyToTags (joinTags (normalizeReply s)) = normalizeReply s :=
    replyToTags_joinTags hprops hhead hlast
  calc normalizeReply (joinTags (normalizeReply s))
      = uniqueTags (replyToTags (joinTags (normalizeReply s))) := rfl
    _ = uniqueTags (normalizeReply s) := by rw [hjoin]
    _ = normalizeReply s :=
        uniqueTags_of_clean
          (fun t ht => ⟨(hprops t ht).1, (hprops t ht).2.1⟩) hnodup

theorem claim_C2_witness :
    headTagNoQuote (normalizeReply ("AI, Tech, AI".data)) = true ∧
    lastTagNoQuote (normalizeReply ("AI, Tech, AI".data)) = true ∧
    normalizeReply (joinTags (normalizeReply ("AI, Tech, AI".data))) =
      normalizeReply ("AI, Tech, AI".data) :=
  ⟨by decide, by decide, claim_C2 ("AI, Tech, AI".data) (by decide) (by decide)⟩

/-- C6 counterexample: in page mode, a reply normalizing to the empty tag set
produces no warning notification at all (only the initial progress message)
— the claim's "a user-facing warning notification is emitted in every
invocation mode" is false. -/
theorem claim_C6_cex :
    replyToTags (",,,".data) = [] ∧
    tagpageCommand ("k".data) (some ("p".data)) [⟨"b1".data, "hello".data⟩]
        (.reply (",,,".data)) =
      ⟨true, [], [⟨"Génération des tags pour la page...", "info"⟩]⟩ ∧
    (tagpageCommand ("k".data) (some ("p".data)) [⟨"b1".data, "hello".data⟩]
        (.reply (",,,".data))).notifs.all
      (fun n => n.severity != "warning") = true ∧
    (tagpageCommand ("k".data) (some ("p".data)) [⟨"b1".data, "hello".data⟩]
        (.reply (",,,".data))).mutations = [] := by
  decide

/-- C6 (amended): when normalization of the API reply produces an empty tag
set, no document mutation is performed in any mode; in block mode an
informational (severity `info`) notification is shown, while page and
selection mode show nothing beyond the initial progress message. -/
theorem claim_C6 (apiKey r : Str) (hkey : trim apiKey ≠ [])
    (hr : replyToTags r = []) :
    (∀ (blk : Block) (children : List Block),
      contentForAI blk.content ≠ [] →
      tagsCommand apiKey (some blk) children (.reply r) =
        ⟨true, [], [⟨"Génération des tags pour le bloc...", "info"⟩,
                    ⟨"Aucun tag à insérer.", "info"⟩]⟩) ∧
    (∀ (pageName : Str) (pageBlocks : List Block),
      pageName ≠ [] → pageBlocks ≠ [] →
      extractPageContent pageBlocks ≠ [] →
      (extractPageContent pageBlocks).length ≤ 15000 →
      tagpageCommand apiKey (some pageName) pageBlocks (.reply r) =
        ⟨true, [], [⟨"Génération des tags pour la page...", "info"⟩]⟩) ∧
    (∀ (text eUuid : Str), trim text ≠ [] →
      tagselectCommand apiKey (some text) eUuid (.reply r) =
        ⟨true, [], [⟨"Génération des tags pour la sélection...", "info"⟩]⟩) := by
  have hfetch : ∀ c : Str, fetchTagsFromDeepSeek c apiKey (.reply r) =
      { result := some [], networkCalled := true, notifs := [] } := by
    intro c
    unfold fetchTagsFromDeepSeek
    rw [if_neg hkey]
    show ({ result := some (replyToTags r), networkCalled := true,
            notifs := [] } : FetchOut) = _
    rw [hr]
  refine ⟨?_, ?_, ?_⟩
  · intro blk children hc
    unfold tagsCommand
    rw [if_neg hkey]
    simp only [hfetch, hc, if_false, reduceIte]
    unfold insertOrUpdateTagsChildBlock
    simp
  · intro pageName pageBlocks hpn hpb hex hlen
    have hpb2 : pageBlocks.isEmpty = false := by
      cases pageBlocks with
      | nil => exact absurd rfl hpb
      | cons b bs => rfl
    have htrunc : truncateForAnalysis (extractPageContent pageBlocks) =
        (extractPageContent pageBlocks, []) := truncateForAnalysis_short hlen
    unfold tagpageCommand
    rw [if_neg hkey]
    simp only [hpn, hpb2, hex, htrunc, hfetch, if_false, reduceIte]
    simp
  · intro text eUuid htext
    unfold tagselectCommand
    rw [if_neg hkey]
    simp only [htext, hfetch, if_false, reduceIte]
    simp

theorem claim_C6_witness :
    trim ("k".data) ≠ [] ∧
    replyToTags (",,,".data) = [] ∧
    tagsCommand ("k".data) (some ⟨"b".data, "hello".data⟩) []
        (.reply (",,,".data)) =
      ⟨true, [], [⟨"Génération des tags pour le bloc...", "info"⟩,
                  ⟨"Aucun tag à insérer.", "info"⟩]⟩ ∧
    tagselectCommand ("k".data) (some ("quelque chose".data)) ("e".data)
        (.reply (",,,".data)) =
      ⟨true, [], [⟨"Génération des tags pour la sélection...", "info"⟩]⟩ :=
  ⟨by decide, by decide,
   (claim_C6 ("k".data) (",,,".data) (by decide) (by decide)).1
     ⟨"b".data, "hello".data⟩ [] (by decide),
   (claim_C6 ("k".data) (",,,".data) (by decide) (by decide)).2.2
     ("quelque chose".data) ("e".data) (by decide)⟩

/-- C5 counterexample: for the content `$&`, `String.prototype.replace`
expands the replacement pattern and embeds the matched placeholder
`{TEXTE_DU_BLOC}` instead of the (escaped) content, so the prompt does not
embed the content at all. -/
theorem claim_C5_cex :
    escapeQuotes ("$&".data) = ("$&".data) ∧
    buildPrompt ("$&".data) 2025 2 15 =
      c5Pre ++ (("{TEXTE_DU_BLOC}".data) ++ c5Post) ∧
    containsSub (escapeQuotes ("$&".data)) (buildPrompt ("$&".data) 2025 2 15) =
      false := by
  decide

/-- C5 (amended): the prompt built for reference date 2025-02-15 is the
fixed template text around the JS `$`-expansion of the escaped content; it
embeds the date formatted `2025-02-15` and contains the literal substrings
`2025`, the French uppercase month name `FEVRIER` (with the year, for
February), `T1 2025`, `S1 2025`, and the four-month-period tag `Q1 2025` —
and, whenever the escaped content contains none of the replacement patterns
`$$`, `$&`, dollar-backquote, `$'`, it embeds the content with its internal
double quotes escaped. -/
theorem claim_C5 (content : Str) :
    buildPrompt content 2025 2 15 =
      c5Pre ++ (getSubstitution ("{TEXTE_DU_BLOC}".data) c5Pre c5Post
        (escapeQuotes content) ++ c5Post) ∧
    currentDateString 2025 2 15 = ("2025-02-15".data) ∧
    containsSub ("2025".data) (buildPrompt content 2025 2 15) = true ∧
    containsSub ("FEVRIER 2025".data) (buildPrompt content 2025 2 15) = true ∧
    containsSub ("T1 2025".data) (buildPrompt content 2025 2 15) = true ∧
    containsSub ("Q1 2025".data) (buildPrompt content 2025 2 15) = true ∧
    containsSub ("S1 2025".data) (buildPrompt content 2025 2 15) = true ∧
    containsSub ("2025-02-15".data) (buildPrompt content 2025 2 15) = true ∧
    (hasDollarPat (escapeQuotes content) = false →
      buildPrompt content 2025 2 15 = c5Pre ++ (escapeQuotes content ++ c5Post) ∧
      containsSub (escapeQuotes content) (buildPrompt content 2025 2 15) = true) := by
  have hsplit : promptTemplate (currentDateString 2025 2 15) =
      c5Pre ++ (("{TEXTE_DU_BLOC}".data) ++ c5Post) := by decide
  have hmain : buildPrompt content 2025 2 15 =
      c5Pre ++ (getSubstitution ("{TEXTE_DU_BLOC}".data) c5Pre c5Post
        (escapeQuotes content) ++ c5Post) := by
    unfold buildPrompt replaceFirst
    rw [hsplit,
      replaceFirstAux_skip c5Pre [] (("{TEXTE_DU_BLOC}".data) ++ c5Post) (by decide),
      replaceFirstAux_hit (c5Pre.reverse ++ []) c5Post (by decide),
      List.append_nil, List.reverse_reverse, List.append_assoc]
  refine ⟨hmain, by decide, ?_, ?_, ?_, ?_, ?_, ?_, ?_⟩
  · rw [hmain]
    exact containsSub_append_left _ (by decide)
  · rw [hmain]
    exact containsSub_append_left _ (by decide)
  · rw [hmain]
    exact containsSub_append_left _ (by decide)
  · rw [hmain]
    exact containsSub_append_left _ (by decide)
  · rw [hmain]
    exact containsSub_append_left _ (by decide)
  · rw [hmain]
    exact containsSub_append_right c5Pre
      (containsSub_append_right _ (by decide))
  · intro h
    have hid : getSubstitution ("{TEXTE_DU_BLOC}".data) c5Pre c5Post
        (escapeQuotes content) = escapeQuotes content :=
      getSubstitution_of_no_pat (escapeQuotes content) h
    constructor
    · rw [hmain, hid]
    · rw [hmain, hid]
      exact containsSub_middle (escapeQuotes content) c5Pre c5Post

theorem claim_C5_witness :
    hasDollarPat (escapeQuotes ("dire \"salut\"".data)) = false ∧
    buildPrompt ("dire \"salut\"".data) 2025 2 15 =
      c5Pre ++ (escapeQuotes ("dire \"salut\"".data) ++ c5Post) ∧
    containsSub (escapeQuotes ("dire \"salut\"".data))
      (buildPrompt ("dire \"salut\"".data) 2025 2 15) = true :=
  ⟨by decide,
   ((claim_C5 ("dire \"salut\"".data)).2.2.2.2.2.2.2.2 (by decide)).1,
   ((claim_C5 ("dire \"salut\"".data)).2.2.2.2.2.2.2.2 (by decide)).2⟩

end Tagger
